import Mathlib

/-!
Verification of the go-reverse-proxy repository: a shallow embedding of its
route model (`route.go`), header-merge helpers (`httputil/header.go`), health
monitor (`health/healthcheck.go`) and the dispatcher `ReverseProxyMux`
(`ServeHTTP` / `HandlePath` and the in-flight load counter), together with
theorems settling the specification claims about them.

Modelling conventions:
- Go maps (`http.Header`, the nested modifier map) are association lists with
  at most one binding per key; a `nil` map is the empty list.
- Go functions that mutate a value in place are embedded as pure functions
  returning the updated value; fallible calls return `Except`.
- External collaborators (the TCP probe, the `haoxins/rewrite` rule compiler,
  the stdlib forwarding engine) are passed in as explicit function or
  `Except` arguments, since their code is outside this repository.
-/

deriving instance DecidableEq for Except

/-- Association-list lookup, modelling Go map indexing `m[k]` (with `ok`). -/
def alookup {β : Type} : List (String × β) → String → Option β
  | [], _ => none
  | e :: es, k => if e.1 = k then some e.2 else alookup es k

/-- Association-list update, modelling Go map assignment `m[k] = v`. -/
def aset {β : Type} : List (String × β) → String → β → List (String × β)
  | [], k, v => [(k, v)]
  | e :: es, k, v => if e.1 = k then (k, v) :: es else e :: aset es k v

/-- The keys of an association list. -/
def akeys {β : Type} (m : List (String × β)) : List String :=
  m.map Prod.fst

/-- A Go map invariant: every key occurs at most once. -/
def keysNodup {β : Type} (m : List (String × β)) : Prop :=
  (akeys m).Nodup

instance {β : Type} (m : List (String × β)) : Decidable (keysNodup m) := by
  unfold keysNodup; infer_instance

/-- An `http.Header`: canonical-form keys mapped to lists of values.
MIME-canonicalisation of keys by the Go stdlib is not re-modelled; keys are
taken verbatim (all keys appearing in this development are canonical). -/
abbrev Header := List (String × List String)

/-- Go `http.Header.Set`: replace the whole value list by the singleton. -/
def headerSet (h : Header) (k v : String) : Header :=
  aset h k [v]

/-- Go `http.Header.Add`: append one value to the key's list
(`h[key] = append(h[key], value)`, creating the entry if absent). -/
def headerAdd : Header → String → String → Header
  | [], k, v => [(k, [v])]
  | e :: es, k, v => if e.1 = k then (e.1, e.2 ++ [v]) :: es else e :: headerAdd es k v

/-- An HTTP request as used by the dispatcher: `r.Method`, `r.URL.Scheme`,
`r.URL.Path`, `r.Host` and `r.Header`. -/
structure Request where
  method : String
  urlScheme : String
  urlPath : String
  host : String
  header : Header
deriving DecidableEq, Repr

/-- An upstream HTTP response as seen by a response modifier: the fields the
dispatcher reads are `r.Request.Method` and `r.Request.URL.Path` (the
outgoing request the response answers); `marks` abstracts the mutable
response content that modifiers edit. -/
structure Response where
  reqMethod : String
  reqUrlPath : String
  marks : List String := []
deriving DecidableEq, Repr

/-- A `ResponseModifier` edits the response or fails with an error. -/
abbrev ResponseModifier := Response → Except String Response

/-- `ResponseModifierMap`: the nested Go map `[method][path]ResponseModifier`. -/
abbrev ResponseModifierMap := List (String × List (String × ResponseModifier))

/-- One entry of `httputil.MergeRequestHeaders`' inner loop:
`for k, v := range header { r.Header[k] = v }` applied to one source. -/
def applyHeaderSource (dst src : Header) : Header :=
  src.foldl (fun a e => aset a e.1 e.2) dst

/-- `httputil.MergeRequestHeaders`: each source's entries overwrite the
request header wholesale, later sources overriding earlier ones. -/
def MergeRequestHeaders (r : Request) (headers : List Header) : Request :=
  { r with header := headers.foldl applyHeaderSource r.header }

/-- The inner loop of `httputil.MergeResponseWriterHeaders` for one key:
index 0 goes through `Set`, every later line through `Add`. -/
def applyLines (a : Header) (k : String) (lines : List String) : Header :=
  match lines with
  | [] => a
  | v :: vs => vs.foldl (fun acc line => headerAdd acc k line) (headerSet a k v)

/-- One source of `httputil.MergeResponseWriterHeaders`. -/
def applyWriterSource (dst src : Header) : Header :=
  src.foldl (fun a e => applyLines a e.1 e.2) dst

/-- `httputil.MergeResponseWriterHeaders`: merge sources into the response
writer's header sink with first-`Set`-then-`Add` semantics per key. -/
def MergeResponseWriterHeaders (w : Header) (headers : List Header) : Header :=
  headers.foldl applyWriterSource w

/-- A registered route (`Route` in `route.go`). `modifyResponse = none`
models a nil `ResponseModifier`; `requestHeader = []` a nil header map. -/
structure Route where
  method : List String
  path : String
  rewritePath : String := ""
  requestHeader : Header := []
  modifyResponse : Option ResponseModifier := none

/-- `Route.SetRewritePath` (value receiver: operates on a copy). -/
def Route.SetRewritePath (r : Route) (path : String) : Route :=
  { r with rewritePath := path }

/-- `Route.SetRequestHeader` (value receiver: operates on a copy). -/
def Route.SetRequestHeader (r : Route) (header : Header) : Route :=
  { r with requestHeader := header }

/-- `Route.SetModifyResponse` (value receiver: operates on a copy). -/
def Route.SetModifyResponse (r : Route) (modifier : Option ResponseModifier) : Route :=
  { r with modifyResponse := modifier }

/-- Go `strings.Split` restricted to a one-character separator, on the
underlying character list: separators delimit (possibly empty) fields. -/
def goSplitChars (sep : Char) : List Char → List (List Char)
  | [] => [[]]
  | c :: cs =>
    if c = sep then [] :: goSplitChars sep cs
    else
      match goSplitChars sep cs with
      | [] => [[c]]
      | g :: gs => (c :: g) :: gs

/-- Go `strings.Split(s, sep)` for a one-character separator. -/
def goSplit (s : String) (sep : Char) : List String :=
  (goSplitChars sep s.data).map String.mk

/-- `methodStringToSlice` from `route.go`: `"*"` expands to the fixed verb
list, anything else is split on `"|"`. -/
def methodStringToSlice (methods : String) : List String :=
  if methods = "*" then ["GET", "HEAD", "OPTIONS", "POST", "PUT", "PATCH", "DELETE"]
  else goSplit methods '|'

/-- `NewRoute` from `route.go`. -/
def NewRoute (methods path : String) : Route :=
  { method := methodStringToSlice methods, path := path }

/-- Joining method tokens with the `"|"` separator, used to state the
round-trip property of `methodStringToSlice` on `"A|B|C"`-shaped specs. -/
def pipeJoin : List String → String
  | [] => ""
  | [t] => t
  | t :: t2 :: ts => t ++ "|" ++ pipeJoin (t2 :: ts)

/-- The origin URL; only its host is read by the dispatcher and the probe. -/
structure URL where
  host : String
deriving DecidableEq, Repr

/-- Operations performed on a cancellation channel (`h.cancel`): a blocking
send of the stop signal, and closing the channel. -/
inductive ChanOp where
  | send
  | close
deriving DecidableEq, Repr

/-- The `HealthCheck` state (`health/healthcheck.go`): all mutable fields are
guarded by one mutex in the source, so each exported method is embedded as
one atomic state transformation. `cancel = none` models a nil channel. -/
structure HealthCheck where
  origin : URL
  check : URL → Bool
  period : Nat
  cancel : Option Unit
  isAvailable : Bool

/-- The default probe period `defaultHealthCheckPeriod` (seconds). -/
def defaultHealthCheckPeriod : Nat := 10

/-- `NewHealthCheck`: records the origin, installs the default probe, and
synchronously evaluates it once for the initial `isAvailable` value. The
default TCP-dial probe `defaultHealthCheckFunc` performs network I/O, so it
is passed in as the boolean function `defaultCheck`. -/
def NewHealthCheck (defaultCheck : URL → Bool) (origin : URL) : HealthCheck :=
  { origin := origin
    check := defaultCheck
    period := defaultHealthCheckPeriod
    cancel := some ()
    isAvailable := defaultCheck origin }

/-- `HealthCheck.IsAvailable`: lock-protected read of the cached flag. -/
def HealthCheck.IsAvailable (h : HealthCheck) : Bool :=
  h.isAvailable

/-- One tick of the background loop started by `run`: re-evaluate the probe
and store the result. -/
def HealthCheck.tick (h : HealthCheck) : HealthCheck :=
  { h with isAvailable := h.check h.origin }

/-- The unexported `stop`: when the cancel channel is non-nil, send the stop
signal, close the channel and set the field to nil; otherwise do nothing.
The returned list records the channel operations performed. -/
def HealthCheck.stopImpl (h : HealthCheck) : HealthCheck × List ChanOp :=
  match h.cancel with
  | some _ => ({ h with cancel := none }, [.send, .close])
  | none => (h, [])

/-- `HealthCheck.Stop`: take the lock and run `stop`. -/
def HealthCheck.Stop (h : HealthCheck) : HealthCheck × List ChanOp :=
  h.stopImpl

/-- `HealthCheck.SetCheckFunc`: under the lock, stop the current loop, swap
in the new probe and period, make a fresh cancel channel, synchronously
evaluate the new probe once, and restart the loop. -/
def HealthCheck.SetCheckFunc (h : HealthCheck) (check : URL → Bool) (period : Nat) :
    HealthCheck × List ChanOp :=
  match h.stopImpl with
  | (h1, ops) =>
    ({ h1 with
        check := check
        period := period
        cancel := some ()
        isAvailable := check h1.origin }, ops)

/-- Load-counter events: `ServeHTTP` performs `atomic.AddInt32(&pm.load, 1)`
on entry and the deferred `atomic.AddInt32(&pm.load, -1)` on exit. -/
inductive LoadEvent where
  | enter
  | leave
deriving DecidableEq, Repr

/-- How a request handled by `ServeHTTP` can finish. -/
inductive RequestOutcome where
  | ok
  | errored
  | faulted
deriving DecidableEq, Repr

/-- The load events one `ServeHTTP` call emits: the increment on entry and,
because the decrement is deferred, exactly one decrement on every exit path
(normal return, error, or recovered internal fault). -/
def serveHTTPLoadEvents : RequestOutcome → List LoadEvent
  | .ok => [.enter, .leave]
  | .errored => [.enter, .leave]
  | .faulted => [.enter, .leave]

/-- Number of increments in a global event trace. -/
def countEnters : List LoadEvent → Nat
  | [] => 0
  | .enter :: es => countEnters es + 1
  | .leave :: es => countEnters es

/-- Number of decrements in a global event trace. -/
def countLeaves : List LoadEvent → Nat
  | [] => 0
  | .enter :: es => countLeaves es
  | .leave :: es => countLeaves es + 1

/-- A trace is a dispatcher trace when, starting from `n` in-flight
requests, every decrement is matched by an earlier unmatched increment:
this is exactly what interleaving per-request `[enter, leave]` spans
produces. -/
def wellFormedFrom : Nat → List LoadEvent → Bool
  | _, [] => true
  | n, e :: es =>
    match e with
    | .enter => wellFormedFrom (n + 1) es
    | .leave =>
      match n with
      | 0 => false
      | n2 + 1 => wellFormedFrom n2 es

/-- A global trace of an initially idle dispatcher. -/
def wellFormedTrace (t : List LoadEvent) : Bool :=
  wellFormedFrom 0 t

/-- `GetLoad` after a trace of events: the value of the atomic counter,
starting at 0, incremented by `enter` and decremented by `leave`. -/
def getLoad (t : List LoadEvent) : Int :=
  t.foldl (fun n e => match e with | .enter => n + 1 | .leave => n - 1) 0

/-- Lines 102-104 of the route handler registered by `HandlePath`:
`r.Header.Set("X-Forwarded-Proto", r.URL.Scheme)`,
`r.Header.Set("X-Forwarded-Host", r.Host)`, then `r.Host = pm.remote.Host`
(the forwarded-host header reads `r.Host` before it is overwritten). -/
def setForwardingMetadata (remoteHost : String) (r : Request) : Request :=
  { r with
      header := headerSet (headerSet r.header "X-Forwarded-Proto" r.urlScheme)
        "X-Forwarded-Host" r.host
      host := remoteHost }

/-- The observable result of the per-route handler closure. -/
inductive HandlerOutcome where
  | forwarded (req : Request)
  | rewriteErrorHandled (err : String) (req : Request)
  | nilHandlerFault (err : String)
deriving DecidableEq, Repr

/-- The per-route handler closure registered by `HandlePath`: set the
forwarding metadata, then, when the route has a rewrite target, compile the
rewrite rule (`rewrite.NewRule(route.Path, route.RewritePath)`, an external
library call whose result is the `newRule` argument, the compiled rule
abstracted to its action on the URL path); on a compile error the handler
invokes `pm.ErrorHandler` — a nil function call when no handler is
configured — and returns; otherwise it rewrites the path, merges
`pm.RequestHeader` then `route.RequestHeader` into the request, and hands it
to the forwarding engine. -/
def handleRequest (remoteHost : String) (globalHeader : Header) (route : Route)
    (errorHandlerSet : Bool) (newRule : Except String (String → String))
    (r : Request) : HandlerOutcome :=
  let r1 := setForwardingMetadata remoteHost r
  if route.rewritePath = "" then
    .forwarded (MergeRequestHeaders r1 [globalHeader, route.requestHeader])
  else
    match newRule with
    | .error e =>
      if errorHandlerSet then .rewriteErrorHandled e r1 else .nilHandlerFault e
    | .ok rule =>
      .forwarded (MergeRequestHeaders { r1 with urlPath := rule r1.urlPath }
        [globalHeader, route.requestHeader])

/-- Lookup `pm.modifiers[method][path]` in the nested map: a missing method
entry is a nil inner map, whose lookup misses. -/
def mmLookup (m : ResponseModifierMap) (meth path : String) : Option ResponseModifier :=
  match alookup m meth with
  | none => none
  | some inner => alookup inner path

/-- The modifier-registration statement of `HandlePath`:
`if pm.modifiers[method] == nil { pm.modifiers[method] = make(...) };
pm.modifiers[method][route.Path] = route.ModifyResponse`. -/
def mmInsert (m : ResponseModifierMap) (meth path : String) (f : ResponseModifier) :
    ResponseModifierMap :=
  match alookup m meth with
  | none => aset m meth [(path, f)]
  | some inner => aset m meth (aset inner path f)

/-- The modifier-registration loop of `HandlePath`: for each method of the
route, when the route carries a modifier, store it under
`(method, route.Path)`. -/
def registerRouteModifiers (mods : ResponseModifierMap) (route : Route) :
    ResponseModifierMap :=
  route.method.foldl
    (fun acc meth =>
      match route.modifyResponse with
      | some f => mmInsert acc meth route.path f
      | none => acc)
    mods

/-- The closure `ServeHTTP` installs as `pm.proxy.ModifyResponse`: run the
dispatcher-global modifier first when set (its error aborts the chain), then
look up `pm.modifiers[r.Request.Method][r.Request.URL.Path]` — the method
and URL path of the outgoing request attached to the response — and run that
modifier when found. -/
def combinedModifyResponse (globalMod : Option ResponseModifier)
    (mods : ResponseModifierMap) (r : Response) : Except String Response :=
  let routeStep : Response → Except String Response := fun r1 =>
    match mmLookup mods r1.reqMethod r1.reqUrlPath with
    | some modifier =>
      match modifier r1 with
      | .error e => .error e
      | .ok r2 => .ok r2
    | none => .ok r1
  match globalMod with
  | some g =>
    match g r with
    | .error e => .error e
    | .ok r1 => routeStep r1
  | none => routeStep r

/-- Modelled from the spec: the response-modifier chain as §4.2 step 7 words
it, with the route-specific modifier looked up by the request's method and
the ORIGINALLY REGISTERED route path (passed as `registeredPath`), not by
the outgoing request's current URL path. Stated only to compare the code's
`combinedModifyResponse` against the claim's wording. -/
def specModifierChain (globalMod : Option ResponseModifier)
    (mods : ResponseModifierMap) (registeredPath : String) (r : Response) :
    Except String Response :=
  let routeStep : Response → Except String Response := fun r1 =>
    match mmLookup mods r1.reqMethod registeredPath with
    | some modifier =>
      match modifier r1 with
      | .error e => .error e
      | .ok r2 => .ok r2
    | none => .ok r1
  match globalMod with
  | some g =>
    match g r with
    | .error e => .error e
    | .ok r1 => routeStep r1
  | none => routeStep r

/-- Outcome of the forwarding engine's response handling. -/
inductive ProxyOutcome where
  | sent (r : Response)
  | errorHandled (e : String)
deriving DecidableEq, Repr

/-- Modelled from the spec (§4.2 steps 6-7): the stdlib forwarding engine —
a black-box collaborator outside this repository — obtains the upstream
response (or a transport error), applies the installed `ModifyResponse`
closure, and surfaces a failure of either step through the error handler. -/
def proxyServe (modify : Response → Except String Response)
    (transportResult : Except String Response) : ProxyOutcome :=
  match transportResult with
  | .error e => .errorHandled e
  | .ok resp =>
    match modify resp with
    | .error e => .errorHandled e
    | .ok r => .sent r

/-- Looking a key up after setting it yields the new value. -/
theorem alookup_aset_self {β : Type} (m : List (String × β)) (k : String) (v : β) :
    alookup (aset m k v) k = some v := by
  induction m with
  | nil => simp [aset, alookup]
  | cons e es ih =>
    by_cases h : e.1 = k
    · simp [aset, alookup, h]
    · simp [aset, alookup, h, ih]

/-- Setting one key leaves lookups of other keys unchanged. -/
theorem alookup_aset_ne {β : Type} (m : List (String × β)) (k k' : String) (v : β)
    (h : k' ≠ k) : alookup (aset m k v) k' = alookup m k' := by
  induction m with
  | nil => simp [aset, alookup, Ne.symm h]
  | cons e es ih =>
    by_cases h1 : e.1 = k
    · simp [aset, alookup, h1, Ne.symm h]
    · by_cases h2 : e.1 = k'
      · simp [aset, alookup, h1, h2, h]
      · simp [aset, alookup, h1, h2, h, ih]

/-- A lookup misses exactly when the key is absent. -/
theorem alookup_eq_none_iff {β : Type} (m : List (String × β)) (k : String) :
    alookup m k = none ↔ k ∉ akeys m := by
  induction m with
  | nil => simp [alookup, akeys]
  | cons e es ih =>
    by_cases h : e.1 = k
    · simp [alookup, akeys, h]
    · simp [alookup, akeys, h, ih, Ne.symm h]

/-- Merging a source that lacks a key does not affect that key. -/
theorem applyHeaderSource_not_mem (src : Header) (d : Header) (k : String)
    (h : alookup src k = none) :
    alookup (applyHeaderSource d src) k = alookup d k := by
  induction src generalizing d with
  | nil => rfl
  | cons e es ih =>
    by_cases h1 : e.1 = k
    · simp [alookup, h1] at h
    · simp only [alookup, h1, if_neg h1] at h
      have : applyHeaderSource d (e :: es) = applyHeaderSource (aset d e.1 e.2) es := rfl
      rw [this, ih _ h, alookup_aset_ne _ _ _ _ (fun hk => h1 hk.symm)]

/-- Merging a source whose (unique) binding for a key is `v` makes the
destination's binding exactly `v`. -/
theorem applyHeaderSource_mem (src : Header) (d : Header) (k : String) (v : List String)
    (hnd : keysNodup src) (h : alookup src k = some v) :
    alookup (applyHeaderSource d src) k = some v := by
  induction src generalizing d with
  | nil => simp [alookup] at h
  | cons e es ih =>
    have hstep : applyHeaderSource d (e :: es) = applyHeaderSource (aset d e.1 e.2) es := rfl
    rw [hstep]
    by_cases h1 : e.1 = k
    · simp only [alookup, if_pos h1] at h
      have hkeys : keysNodup es ∧ e.1 ∉ akeys es := by
        simp only [keysNodup, akeys, List.map_cons, List.nodup_cons] at hnd
        exact ⟨hnd.2, hnd.1⟩
      have hnone : alookup es k = none := by
        rw [alookup_eq_none_iff]
        rw [h1] at hkeys
        exact hkeys.2
      rw [applyHeaderSource_not_mem _ _ _ hnone, h1]
      rw [alookup_aset_self]
      exact congrArg some (Option.some.inj h)
    · simp only [alookup, if_neg h1] at h
      have hkeys : keysNodup es := by
        simp only [keysNodup, akeys, List.map_cons, List.nodup_cons] at hnd
        exact hnd.2
      exact ih _ hkeys h

/-- The value list of the last source containing the key, `none` when no
source contains it. -/
def lastSourceValue (hs : List Header) (k : String) : Option (List String) :=
  match hs with
  | [] => none
  | src :: rest =>
    match lastSourceValue rest k with
    | some v => some v
    | none => alookup src k

/-- When no source contains the key, every source's lookup misses. -/
theorem lastSourceValue_none (hs : List Header) (k : String)
    (h : lastSourceValue hs k = none) : ∀ s ∈ hs, alookup s k = none := by
  induction hs with
  | nil => intro s hs; simp at hs
  | cons src rest ih =>
    intro s hsmem
    simp only [lastSourceValue] at h
    rcases hlast : lastSourceValue rest k with _ | v
    · rw [hlast] at h
      rcases List.mem_cons.mp hsmem with heq | hmem
      · rw [heq]; exact h
      · exact ih hlast s hmem
    · rw [hlast] at h; exact absurd h (by simp)

/-- Request-header merge, characterised per key: the final binding is the
binding of the last source containing the key, the original one otherwise. -/
theorem mergeFold_lookup (hs : List Header) (base : Header) (k : String)
    (hnd : ∀ s ∈ hs, keysNodup s) :
    alookup (hs.foldl applyHeaderSource base) k =
      match lastSourceValue hs k with
      | some v => some v
      | none => alookup base k := by
  induction hs generalizing base with
  | nil => rfl
  | cons src rest ih =>
    have hstep : (src :: rest).foldl applyHeaderSource base
        = rest.foldl applyHeaderSource (applyHeaderSource base src) := rfl
    rw [hstep, ih _ (fun s hm => hnd s (List.mem_cons_of_mem _ hm))]
    simp only [lastSourceValue]
    rcases hlast : lastSourceValue rest k with _ | v
    · rcases hsrc : alookup src k with _ | v2
      · rw [applyHeaderSource_not_mem _ _ _ hsrc]
      · rw [applyHeaderSource_mem _ _ _ _ (hnd src (List.mem_cons_self _ _)) hsrc]
    · rfl

/-- `Add` appends to the existing value list of the key. -/
theorem alookup_headerAdd_self (a : Header) (k v : String) (l : List String)
    (h : alookup a k = some l) :
    alookup (headerAdd a k v) k = some (l ++ [v]) := by
  induction a with
  | nil => simp [alookup] at h
  | cons e es ih =>
    by_cases h1 : e.1 = k
    · simp only [alookup, if_pos h1] at h
      simp [headerAdd, alookup, h1, Option.some.inj h]
    · simp only [alookup, if_neg h1] at h
      simp [headerAdd, alookup, h1, ih h]

/-- `Add` on one key leaves other keys' lookups unchanged. -/
theorem alookup_headerAdd_ne (a : Header) (k k' v : String) (h : k' ≠ k) :
    alookup (headerAdd a k v) k' = alookup a k' := by
  induction a with
  | nil => simp [headerAdd, alookup, Ne.symm h]
  | cons e es ih =>
    by_cases h1 : e.1 = k
    · simp [headerAdd, alookup, h1, Ne.symm h]
    · by_cases h2 : e.1 = k'
      · simp [headerAdd, alookup, h1, h2, h]
      · simp [headerAdd, alookup, h1, h2, h, ih]

/-- Folding `Add` over further lines appends them all to the key's list. -/
theorem alookup_addFold (vs : List String) (a : Header) (k : String) (l : List String)
    (h : alookup a k = some l) :
    alookup (vs.foldl (fun acc line => headerAdd acc k line) a) k = some (l ++ vs) := by
  induction vs generalizing a l with
  | nil => simpa using h
  | cons v vs ih =>
    have hstep : (v :: vs).foldl (fun acc line => headerAdd acc k line) a
        = vs.foldl (fun acc line => headerAdd acc k line) (headerAdd a k v) := rfl
    rw [hstep, ih _ _ (alookup_headerAdd_self a k v l h)]
    simp

/-- Folding `Add` over lines of one key preserves other keys. -/
theorem alookup_addFold_ne (vs : List String) (a : Header) (k k' : String) (h : k' ≠ k) :
    alookup (vs.foldl (fun acc line => headerAdd acc k line) a) k' = alookup a k' := by
  induction vs generalizing a with
  | nil => rfl
  | cons v vs ih =>
    have hstep : (v :: vs).foldl (fun acc line => headerAdd acc k line) a
        = vs.foldl (fun acc line => headerAdd acc k line) (headerAdd a k v) := rfl
    rw [hstep, ih, alookup_headerAdd_ne _ _ _ _ h]

/-- First-`Set`-then-`Add` for the value list `v :: vs` leaves the sink's
binding for the key exactly `v :: vs`. -/
theorem alookup_applyLines_self (a : Header) (k : String) (v : String) (vs : List String) :
    alookup (applyLines a k (v :: vs)) k = some (v :: vs) := by
  have hset : alookup (headerSet a k v) k = some [v] := alookup_aset_self a k [v]
  simpa [applyLines] using alookup_addFold vs (headerSet a k v) k [v] hset

/-- Applying one key's lines leaves other keys' lookups unchanged. -/
theorem alookup_applyLines_ne (a : Header) (k k' : String) (lines : List String)
    (h : k' ≠ k) : alookup (applyLines a k lines) k' = alookup a k' := by
  cases lines with
  | nil => rfl
  | cons v vs =>
    simp only [applyLines]
    rw [alookup_addFold_ne _ _ _ _ h]
    simp only [headerSet]
    rw [alookup_aset_ne _ _ _ _ h]

/-- A writer-merge of a source that lacks a key preserves that key. -/
theorem applyWriterSource_not_mem (src : Header) (d : Header) (k : String)
    (h : alookup src k = none) :
    alookup (applyWriterSource d src) k = alookup d k := by
  induction src generalizing d with
  | nil => rfl
  | cons e es ih =>
    by_cases h1 : e.1 = k
    · simp [alookup, h1] at h
    · simp only [alookup, if_neg h1] at h
      have hstep : applyWriterSource d (e :: es) = applyWriterSource (applyLines d e.1 e.2) es := rfl
      rw [hstep, ih _ h, alookup_applyLines_ne _ _ _ _ (fun hk => h1 hk.symm)]

/-- A writer-merge of a source whose binding for the key is the non-empty
list `v :: vs` makes the sink's binding exactly `v :: vs`. -/
theorem applyWriterSource_mem (src : Header) (d : Header) (k v : String) (vs : List String)
    (hnd : keysNodup src) (h : alookup src k = some (v :: vs)) :
    alookup (applyWriterSource d src) k = some (v :: vs) := by
  induction src generalizing d with
  | nil => simp [alookup] at h
  | cons e es ih =>
    have hstep : applyWriterSource d (e :: es) = applyWriterSource (applyLines d e.1 e.2) es := rfl
    rw [hstep]
    by_cases h1 : e.1 = k
    · simp only [alookup, if_pos h1] at h
      have hkeys : e.1 ∉ akeys es ∧ keysNodup es := by
        simp only [keysNodup, akeys, List.map_cons, List.nodup_cons] at hnd
        exact ⟨hnd.1, hnd.2⟩
      have hnone : alookup es k = none := by
        rw [alookup_eq_none_iff]
        rw [h1] at hkeys
        exact hkeys.1
      rw [applyWriterSource_not_mem _ _ _ hnone, h1, Option.some.inj h]
      exact alookup_applyLines_self _ _ _ _
    · simp only [alookup, if_neg h1] at h
      have hkeys : keysNodup es := by
        simp only [keysNodup, akeys, List.map_cons, List.nodup_cons] at hnd
        exact hnd.2
      exact ih _ hkeys h

/-- Writer-merge over many sources: when the last source containing the key
binds it to the non-empty list `v :: vs`, the sink ends up with exactly
`v :: vs` for that key. -/
theorem mergeWriterFold_lookup (hs : List Header) (w : Header) (k v : String)
    (vs : List String) (hnd : ∀ s ∈ hs, keysNodup s)
    (hlast : lastSourceValue hs k = some (v :: vs)) :
    alookup (hs.foldl applyWriterSource w) k = some (v :: vs) := by
  induction hs generalizing w with
  | nil => simp [lastSourceValue] at hlast
  | cons src rest ih =>
    have hstep : (src :: rest).foldl applyWriterSource w
        = rest.foldl applyWriterSource (applyWriterSource w src) := rfl
    rw [hstep]
    simp only [lastSourceValue] at hlast
    rcases hrest : lastSourceValue rest k with _ | l
    · rw [hrest] at hlast
      have hsrc : alookup src k = some (v :: vs) := hlast
      have hall : ∀ s ∈ rest, alookup s k = none := lastSourceValue_none rest k hrest
      have hpres : ∀ (d : Header) (rs : List Header), (∀ s ∈ rs, alookup s k = none) →
          alookup (rs.foldl applyWriterSource d) k = alookup d k := by
        intro d rs
        induction rs generalizing d with
        | nil => intro _; rfl
        | cons s2 rs2 ih2 =>
          intro hnone
          have hstep2 : (s2 :: rs2).foldl applyWriterSource d
              = rs2.foldl applyWriterSource (applyWriterSource d s2) := rfl
          rw [hstep2, ih2 _ (fun s hm => hnone s (List.mem_cons_of_mem _ hm)),
            applyWriterSource_not_mem _ _ _ (hnone s2 (List.mem_cons_self _ _))]
      rw [hpres _ _ hall]
      exact applyWriterSource_mem _ _ _ _ _ (hnd src (List.mem_cons_self _ _)) hsrc
    · rw [hrest] at hlast
      rw [Option.some.inj hlast] at hrest
      exact ih _ (fun s hm => hnd s (List.mem_cons_of_mem _ hm)) hrest

/-- A freshly inserted modifier is found under its (method, path) key. -/
theorem mmLookup_mmInsert_self (m : ResponseModifierMap) (meth path : String)
    (f : ResponseModifier) : mmLookup (mmInsert m meth path f) meth path = some f := by
  unfold mmInsert mmLookup
  rcases h : alookup m meth with _ | inner
  · rw [alookup_aset_self]
    simp [alookup]
  · rw [alookup_aset_self]
    exact alookup_aset_self inner path f

/-- Inserting the same modifier under the same path (for any method)
preserves an existing binding for a (method, path) key. -/
theorem mmLookup_mmInsert_preserve (m : ResponseModifierMap) (meth meth2 path : String)
    (f : ResponseModifier) (h : mmLookup m meth path = some f) :
    mmLookup (mmInsert m meth2 path f) meth path = some f := by
  by_cases hm : meth2 = meth
  · rw [hm]; exact mmLookup_mmInsert_self m meth path f
  · unfold mmInsert mmLookup
    rcases h2 : alookup m meth2 with _ | inner
    · rw [alookup_aset_ne _ _ _ _ (fun hk => hm hk.symm)]
      unfold mmLookup at h
      exact h
    · rw [alookup_aset_ne _ _ _ _ (fun hk => hm hk.symm)]
      unfold mmLookup at h
      exact h

/-- `HandlePath` registers the route's modifier under every one of the
route's methods, keyed by the ORIGINAL route path. -/
theorem registerRouteModifiers_lookup (mods : ResponseModifierMap) (route : Route)
    (meth : String) (f : ResponseModifier) (hmem : meth ∈ route.method)
    (hmod : route.modifyResponse = some f) :
    mmLookup (registerRouteModifiers mods route) meth route.path = some f := by
  have hfun : (fun (acc2 : ResponseModifierMap) (m2 : String) =>
      match route.modifyResponse with
      | some g => mmInsert acc2 m2 route.path g
      | none => acc2) = fun acc2 m2 => mmInsert acc2 m2 route.path f := by
    funext acc2 m2
    rw [hmod]
  have aux : ∀ (l : List String) (acc : ResponseModifierMap),
      meth ∈ l ∨ mmLookup acc meth route.path = some f →
      mmLookup (l.foldl (fun acc2 m2 => mmInsert acc2 m2 route.path f) acc)
        meth route.path = some f := by
    intro l
    induction l with
    | nil =>
      intro acc h
      rcases h with h | h
      · simp at h
      · exact h
    | cons m3 l3 ih =>
      intro acc h
      have hstep : ((m3 :: l3).foldl (fun acc2 m2 => mmInsert acc2 m2 route.path f) acc)
          = l3.foldl (fun acc2 m2 => mmInsert acc2 m2 route.path f)
            (mmInsert acc m3 route.path f) := rfl
      rw [hstep]
      rcases h with h | h
      · rcases List.mem_cons.mp h with heq | hmem3
        · refine ih _ (Or.inr ?_)
          rw [heq]
          exact mmLookup_mmInsert_self _ _ _ _
        · exact ih _ (Or.inl hmem3)
      · exact ih _ (Or.inr (mmLookup_mmInsert_preserve _ _ _ _ _ h))
  unfold registerRouteModifiers
  rw [hfun]
  exact aux _ _ (Or.inl hmem)

/-- Every `forwarded` result of the route handler is the header-merge, in
the fixed order global-then-route, applied to a request that carries the
forwarding metadata and the origin host. -/
theorem handleRequest_forwarded_inv (rh : String) (gh : Header) (route : Route)
    (ehs : Bool) (nr : Except String (String → String)) (r req : Request)
    (h : handleRequest rh gh route ehs nr r = .forwarded req) :
    ∃ base : Request, req = MergeRequestHeaders base [gh, route.requestHeader] ∧
      base.header = (setForwardingMetadata rh r).header ∧ base.host = rh := by
  unfold handleRequest at h
  by_cases hrw : route.rewritePath = ""
  · rw [if_pos hrw] at h
    exact ⟨setForwardingMetadata rh r,
      (HandlerOutcome.forwarded.inj h).symm, rfl, rfl⟩
  · rw [if_neg hrw] at h
    cases nr with
    | error e => cases ehs <;> simp at h
    | ok rule =>
      exact ⟨{ setForwardingMetadata rh r with
          urlPath := rule (setForwardingMetadata rh r).urlPath },
        (HandlerOutcome.forwarded.inj h).symm, rfl, rfl⟩

/-- The counter value after a trace equals increments minus decrements. -/
theorem getLoad_eq_counts (t : List LoadEvent) :
    getLoad t = (countEnters t : Int) - countLeaves t := by
  have hgen : ∀ (t : List LoadEvent) (n : Int),
      t.foldl (fun n e => match e with | .enter => n + 1 | .leave => n - 1) n
        = n + countEnters t - countLeaves t := by
    intro t
    induction t with
    | nil => intro n; simp [countEnters, countLeaves]
    | cons e es ih =>
      intro n
      cases e with
      | enter =>
        have hstep : (LoadEvent.enter :: es).foldl
            (fun n e => match e with | .enter => n + 1 | .leave => n - 1) n
            = es.foldl (fun n e => match e with | .enter => n + 1 | .leave => n - 1) (n + 1) := rfl
        rw [hstep, ih]
        simp [countEnters, countLeaves]
        omega
      | leave =>
        have hstep : (LoadEvent.leave :: es).foldl
            (fun n e => match e with | .enter => n + 1 | .leave => n - 1) n
            = es.foldl (fun n e => match e with | .enter => n + 1 | .leave => n - 1) (n - 1) := rfl
        rw [hstep, ih]
        simp [countEnters, countLeaves]
        omega
  have := hgen t 0
  unfold getLoad
  rw [this]
  omega

/-- In a well-formed trace segment starting with `n` requests in flight, the
decrements never outrun the increments by more than `n`. -/
theorem wellFormedFrom_counts (t : List LoadEvent) :
    ∀ n : Nat, wellFormedFrom n t = true → countLeaves t ≤ n + countEnters t := by
  induction t with
  | nil => intro n _; simp [countLeaves, countEnters]
  | cons e es ih =>
    intro n h
    cases e with
    | enter =>
      simp only [wellFormedFrom] at h
      have h2 := ih (n + 1) h
      simp only [countLeaves, countEnters]
      omega
    | leave =>
      cases n with
      | zero => simp [wellFormedFrom] at h
      | succ n2 =>
        simp only [wellFormedFrom] at h
        have h2 := ih n2 h
        simp only [countLeaves, countEnters]
        omega

/-- Well-formedness of a trace is inherited by every prefix. -/
theorem wellFormedFrom_append (p q : List LoadEvent) :
    ∀ n : Nat, wellFormedFrom n (p ++ q) = true → wellFormedFrom n p = true := by
  induction p with
  | nil => intro n _; rfl
  | cons e es ih =>
    intro n h
    cases e with
    | enter =>
      simp only [List.cons_append, wellFormedFrom] at h
      simp only [wellFormedFrom]
      exact ih (n + 1) h
    | leave =>
      cases n with
      | zero => simp [wellFormedFrom] at h
      | succ n2 =>
        simp only [List.cons_append, wellFormedFrom] at h
        simp only [wellFormedFrom]
        exact ih n2 h

/-- Appending strings concatenates their character lists. -/
theorem string_data_append (a b : String) : (a ++ b).data = a.data ++ b.data := by
  cases a
  cases b
  rfl

/-- Splitting a separator-free character list yields one field. -/
theorem goSplitChars_no_sep (sep : Char) (l : List Char) (h : sep ∉ l) :
    goSplitChars sep l = [l] := by
  induction l with
  | nil => rfl
  | cons c cs ih =>
    have hc : ¬ c = sep := fun hc => h (hc ▸ List.mem_cons_self _ _)
    have hcs : sep ∉ cs := fun hm => h (List.mem_cons_of_mem _ hm)
    simp only [goSplitChars, if_neg hc, ih hcs]

/-- Splitting peels off a leading separator-free field. -/
theorem goSplitChars_append (sep : Char) (l rest : List Char) (h : sep ∉ l) :
    goSplitChars sep (l ++ sep :: rest) = l :: goSplitChars sep rest := by
  induction l with
  | nil => simp [goSplitChars]
  | cons c cs ih =>
    have hc : ¬ c = sep := fun hc => h (hc ▸ List.mem_cons_self _ _)
    have hcs : sep ∉ cs := fun hm => h (List.mem_cons_of_mem _ hm)
    have hstep : (c :: cs) ++ sep :: rest = c :: (cs ++ sep :: rest) := rfl
    rw [hstep]
    simp only [goSplitChars, if_neg hc]
    rw [ih hcs]

/-- The characters of a pipe-join of at least two tokens. -/
theorem pipeJoin_data (t t2 : String) (ts : List String) :
    (pipeJoin (t :: t2 :: ts)).data = t.data ++ '|' :: (pipeJoin (t2 :: ts)).data := by
  have h : pipeJoin (t :: t2 :: ts) = t ++ "|" ++ pipeJoin (t2 :: ts) := rfl
  rw [h, string_data_append, string_data_append]
  simp

/-- Go `strings.Split` inverts a pipe-join of separator-free tokens. -/
theorem goSplit_pipeJoin (ts : List String) (hne : ts ≠ [])
    (h : ∀ x ∈ ts, '|' ∉ x.data) : goSplit (pipeJoin ts) '|' = ts := by
  induction ts with
  | nil => exact absurd rfl hne
  | cons t rest ih =>
    cases rest with
    | nil =>
      have hsplit := goSplitChars_no_sep '|' t.data (h t (List.mem_cons_self _ _))
      simp only [goSplit, pipeJoin, hsplit, List.map_cons, List.map_nil]
    | cons t2 ts2 =>
      have hstep := goSplitChars_append '|' t.data
        ((pipeJoin (t2 :: ts2)).data) (h t (List.mem_cons_self _ _))
      have hdata := pipeJoin_data t t2 ts2
      have hrec := ih (by simp) (fun x hx => h x (List.mem_cons_of_mem _ hx))
      simp only [goSplit] at hrec
      simp only [goSplit, hdata, hstep, List.map_cons]
      refine congrArg₂ _ ?_ hrec
      cases t
      rfl

/-- A pipe-join of at least two tokens contains the separator, hence is not
the literal `"*"`. -/
theorem pipeJoin_ne_star (t t2 : String) (ts : List String) :
    pipeJoin (t :: t2 :: ts) ≠ "*" := by
  intro h
  have hd := congrArg String.data h
  rw [pipeJoin_data] at hd
  have hmem : '|' ∈ ("*" : String).data := by
    rw [← hd]
    simp
  simp at hmem

/-- C9: `methodStringToSlice` expands `"*"` to exactly
`[GET, HEAD, OPTIONS, POST, PUT, PATCH, DELETE]` in that order; a
pipe-separated spec `"A|B|C"` of separator-free tokens expands to `[A, B, C]`
preserving input order; and a single separator-free token (other than the
wildcard) yields the one-element list containing that token. -/
theorem methodStringToSlice_expansion :
    methodStringToSlice "*" = ["GET", "HEAD", "OPTIONS", "POST", "PUT", "PATCH", "DELETE"] ∧
    (∀ (t t2 : String) (ts : List String),
      (∀ x ∈ t :: t2 :: ts, '|' ∉ x.data) →
      methodStringToSlice (pipeJoin (t :: t2 :: ts)) = t :: t2 :: ts) ∧
    (∀ t : String, '|' ∉ t.data → t ≠ "*" → methodStringToSlice t = [t]) := by
  refine ⟨rfl, ?_, ?_⟩
  · intro t t2 ts h
    unfold methodStringToSlice
    rw [if_neg (pipeJoin_ne_star t t2 ts)]
    exact goSplit_pipeJoin _ (by simp) h
  · intro t h hne
    unfold methodStringToSlice
    rw [if_neg hne]
    exact goSplit_pipeJoin [t] (by simp) (by simpa using h)

/-- Witness for C9: the general expansion theorem evaluated at the concrete
method specs `"GET|POST"` and `"PATCH"`. -/
theorem methodStringToSlice_expansion_witness :
    methodStringToSlice "GET|POST" = ["GET", "POST"] ∧
    methodStringToSlice "PATCH" = ["PATCH"] := by
  constructor
  · have hj : pipeJoin ["GET", "POST"] = "GET|POST" := rfl
    have h := methodStringToSlice_expansion.2.1 "GET" "POST" [] (by decide)
    rw [hj] at h
    exact h
  · exact methodStringToSlice_expansion.2.2 "PATCH" (by decide) (by decide)

/-- C10: the `Route` setters are value-receiver methods: each returns a copy
of the route with only the addressed field changed; in this pure embedding
the received route value itself is immutable, so the caller's original is
untouched and the setters have no effect unless the result is used. -/
theorem route_setters_copy (r : Route) (p : String) (hd : Header)
    (m : Option ResponseModifier) :
    (r.SetRewritePath p).rewritePath = p ∧
    (r.SetRewritePath p).method = r.method ∧
    (r.SetRewritePath p).path = r.path ∧
    (r.SetRewritePath p).requestHeader = r.requestHeader ∧
    (r.SetRewritePath p).modifyResponse = r.modifyResponse ∧
    (r.SetRequestHeader hd).requestHeader = hd ∧
    (r.SetRequestHeader hd).method = r.method ∧
    (r.SetRequestHeader hd).path = r.path ∧
    (r.SetRequestHeader hd).rewritePath = r.rewritePath ∧
    (r.SetRequestHeader hd).modifyResponse = r.modifyResponse ∧
    (r.SetModifyResponse m).modifyResponse = m ∧
    (r.SetModifyResponse m).method = r.method ∧
    (r.SetModifyResponse m).path = r.path ∧
    (r.SetModifyResponse m).rewritePath = r.rewritePath ∧
    (r.SetModifyResponse m).requestHeader = r.requestHeader :=
  ⟨rfl, rfl, rfl, rfl, rfl, rfl, rfl, rfl, rfl, rfl, rfl, rfl, rfl, rfl, rfl⟩

/-- C5: right after construction, `IsAvailable` returns the result of the
one synchronous invocation of the default probe performed by
`NewHealthCheck`; and right after `SetCheckFunc(newProbe, newPeriod)`,
`IsAvailable` returns the result of the one synchronous invocation of the
new probe, independent of any previously cached value and without waiting
for a periodic tick. -/
theorem healthcheck_immediate_probe :
    (∀ (defaultCheck : URL → Bool) (origin : URL),
      (NewHealthCheck defaultCheck origin).IsAvailable = defaultCheck origin) ∧
    (∀ (h : HealthCheck) (c : URL → Bool) (p : Nat),
      ((h.SetCheckFunc c p).1).IsAvailable = c h.origin) := by
  refine ⟨fun _ _ => rfl, ?_⟩
  intro h c p
  rcases h with ⟨o, ck, pd, cancel, av⟩
  cases cancel <;> rfl

/-- C6: `Stop` is idempotent: after one `Stop`, a second `Stop` returns the
state unchanged and performs no channel operation — the cancellation
channel is neither signalled nor closed a second time, because `stop` nils
the channel field and re-checks it for nil. -/
theorem healthcheck_stop_idempotent (h : HealthCheck) :
    (h.Stop.1).Stop = (h.Stop.1, ([] : List ChanOp)) := by
  rcases h with ⟨o, ck, pd, cancel, av⟩
  cases cancel <;> rfl

/-- C3: `ServeHTTP` emits exactly one increment on entry and, via `defer`,
exactly one decrement on every exit path; consequently over any well-formed
interleaved trace the counter reads exactly the number of requests entered
minus the number exited (so N during N in-flight requests), returns to 0
when all requests have completed, and is never observed negative at any
point of the trace. -/
theorem load_counter_balanced :
    (∀ o : RequestOutcome, serveHTTPLoadEvents o = [LoadEvent.enter, LoadEvent.leave]) ∧
    (∀ t : List LoadEvent, getLoad t = (countEnters t : Int) - countLeaves t) ∧
    (∀ t : List LoadEvent, countEnters t = countLeaves t → getLoad t = 0) ∧
    (∀ (t : List LoadEvent) (n : Nat), countEnters t = countLeaves t + n →
      getLoad t = n) ∧
    (∀ t p q : List LoadEvent, wellFormedTrace t = true → t = p ++ q →
      0 ≤ getLoad p) := by
  refine ⟨?_, getLoad_eq_counts, ?_, ?_, ?_⟩
  · intro o; cases o <;> rfl
  · intro t h
    have h2 := getLoad_eq_counts t
    omega
  · intro t n h
    have h2 := getLoad_eq_counts t
    omega
  · intro t p q hwf hsplit
    subst hsplit
    have h1 : wellFormedFrom 0 p = true := wellFormedFrom_append p q 0 hwf
    have h2 := wellFormedFrom_counts p 0 h1
    have h3 := getLoad_eq_counts p
    omega

/-- Witness for C3: two requests in flight read load 2; after both leave the
counter is back to 0 and was never negative along the way. -/
theorem load_counter_balanced_witness :
    getLoad [LoadEvent.enter, LoadEvent.enter] = 2 ∧
    getLoad [LoadEvent.enter, LoadEvent.enter, LoadEvent.leave, LoadEvent.leave] = 0 ∧
    0 ≤ getLoad [LoadEvent.enter, LoadEvent.enter, LoadEvent.leave] := by
  refine ⟨?_, ?_, ?_⟩
  · exact load_counter_balanced.2.2.2.1 [LoadEvent.enter, LoadEvent.enter] 2 (by decide)
  · exact load_counter_balanced.2.2.1
      [LoadEvent.enter, LoadEvent.enter, LoadEvent.leave, LoadEvent.leave] (by decide)
  · exact load_counter_balanced.2.2.2.2
      [LoadEvent.enter, LoadEvent.enter, LoadEvent.leave, LoadEvent.leave]
      [LoadEvent.enter, LoadEvent.enter, LoadEvent.leave] [LoadEvent.leave]
      (by decide) rfl

/-- C4: every request the handler forwards carries `Host` rewritten to the
origin's host; and — as long as the configured header overlays do not
themselves bind the forwarding keys — `X-Forwarded-Proto` equal to the
original request's URL scheme and `X-Forwarded-Host` equal to the original
request's `Host`, both set before the rewrite and merge steps. -/
theorem forwarded_request_metadata (rh : String) (gh : Header) (route : Route)
    (ehs : Bool) (nr : Except String (String → String)) (r req : Request)
    (h : handleRequest rh gh route ehs nr r = .forwarded req) :
    req.host = rh ∧
    (alookup gh "X-Forwarded-Proto" = none →
      alookup route.requestHeader "X-Forwarded-Proto" = none →
      alookup req.header "X-Forwarded-Proto" = some [r.urlScheme]) ∧
    (alookup gh "X-Forwarded-Host" = none →
      alookup route.requestHeader "X-Forwarded-Host" = none →
      alookup req.header "X-Forwarded-Host" = some [r.host]) := by
  obtain ⟨base, hreq, hhdr, hhost⟩ := handleRequest_forwarded_inv rh gh route ehs nr r req h
  have hreqhost : req.host = base.host := by rw [hreq]; rfl
  have hreqhdr : req.header
      = applyHeaderSource (applyHeaderSource base.header gh) route.requestHeader := by
    rw [hreq]; rfl
  refine ⟨by rw [hreqhost, hhost], ?_, ?_⟩
  · intro hg hr
    rw [hreqhdr, applyHeaderSource_not_mem _ _ _ hr, applyHeaderSource_not_mem _ _ _ hg,
      hhdr]
    show alookup (headerSet (headerSet r.header "X-Forwarded-Proto" r.urlScheme)
      "X-Forwarded-Host" r.host) "X-Forwarded-Proto" = some [r.urlScheme]
    unfold headerSet
    rw [alookup_aset_ne _ _ _ _ (by decide), alookup_aset_self]
  · intro hg hr
    rw [hreqhdr, applyHeaderSource_not_mem _ _ _ hr, applyHeaderSource_not_mem _ _ _ hg,
      hhdr]
    show alookup (headerSet (headerSet r.header "X-Forwarded-Proto" r.urlScheme)
      "X-Forwarded-Host" r.host) "X-Forwarded-Host" = some [r.host]
    unfold headerSet
    rw [alookup_aset_self]

/-- A concrete route, global header and request for the C4 witness. -/
def c4Route : Route :=
  { method := ["GET"], path := "/x", requestHeader := [("Accept", ["application/json"])] }

/-- The dispatcher-global request header of the C4 witness. -/
def c4Gh : Header := [("Authorization", ["Bearer abc123"])]

/-- The incoming request of the C4 witness. -/
def c4Req : Request :=
  { method := "GET", urlScheme := "https", urlPath := "/x", host := "example.com",
    header := [] }

/-- The request the handler forwards in the C4 witness. -/
def c4Fwd : Request :=
  MergeRequestHeaders (setForwardingMetadata "backend:8000" c4Req)
    [c4Gh, c4Route.requestHeader]

/-- Witness for C4: the metadata theorem evaluated on a concrete request. -/
theorem forwarded_request_metadata_witness :
    c4Fwd.host = "backend:8000" ∧
    alookup c4Fwd.header "X-Forwarded-Proto" = some ["https"] ∧
    alookup c4Fwd.header "X-Forwarded-Host" = some ["example.com"] := by
  have h := forwarded_request_metadata "backend:8000" c4Gh c4Route true
    (.ok fun p => p) c4Req c4Fwd rfl
  exact ⟨h.1, h.2.1 (by decide) (by decide), h.2.2 (by decide) (by decide)⟩

/-- C7: merging header sources into a request replaces whole value lists —
for any key held by several sources the final list is exactly the list of
the last source containing it, never an append — and at dispatch time the
handler applies exactly the two sources dispatcher-global then
route-specific, so a route binding wins over a global one and a global
binding survives when the route does not bind the key. -/
theorem merge_request_headers_last_wins :
    (∀ (r : Request) (hs : List Header) (k : String),
      (∀ s ∈ hs, keysNodup s) →
      alookup (MergeRequestHeaders r hs).header k =
        match lastSourceValue hs k with
        | some v => some v
        | none => alookup r.header k) ∧
    (∀ (rh : String) (gh : Header) (route : Route) (ehs : Bool)
      (nr : Except String (String → String)) (r req : Request) (k : String)
      (v : List String),
      handleRequest rh gh route ehs nr r = .forwarded req →
      keysNodup route.requestHeader → alookup route.requestHeader k = some v →
      alookup req.header k = some v) ∧
    (∀ (rh : String) (gh : Header) (route : Route) (ehs : Bool)
      (nr : Except String (String → String)) (r req : Request) (k : String)
      (v : List String),
      handleRequest rh gh route ehs nr r = .forwarded req →
      keysNodup gh → alookup route.requestHeader k = none → alookup gh k = some v →
      alookup req.header k = some v) := by
  refine ⟨?_, ?_, ?_⟩
  · intro r hs k hnd
    exact mergeFold_lookup hs r.header k hnd
  · intro rh gh route ehs nr r req k v hfwd hnd hv
    obtain ⟨base, hreq, _, _⟩ := handleRequest_forwarded_inv rh gh route ehs nr r req hfwd
    have hh : req.header
        = applyHeaderSource (applyHeaderSource base.header gh) route.requestHeader := by
      rw [hreq]; rfl
    rw [hh]
    exact applyHeaderSource_mem _ _ _ _ hnd hv
  · intro rh gh route ehs nr r req k v hfwd hnd hnone hv
    obtain ⟨base, hreq, _, _⟩ := handleRequest_forwarded_inv rh gh route ehs nr r req hfwd
    have hh : req.header
        = applyHeaderSource (applyHeaderSource base.header gh) route.requestHeader := by
      rw [hreq]; rfl
    rw [hh, applyHeaderSource_not_mem _ _ _ hnone]
    exact applyHeaderSource_mem _ _ _ _ hnd hv

/-- The dispatcher-global header of the C7 witness. -/
def c7Gh : Header := [("Content-Type", ["application/json"]), ("Accept", ["text/html"])]

/-- The route-specific header of the C7 witness, overlapping on one key. -/
def c7Rh : Header := [("Content-Type", ["text/plain"])]

/-- The incoming request of the C7 witness. -/
def c7Req : Request :=
  { method := "GET", urlScheme := "http", urlPath := "/p", host := "h", header := [] }

/-- The registered route of the C7 witness. -/
def c7Route : Route := { method := ["GET"], path := "/p", requestHeader := c7Rh }

/-- The request the handler forwards in the C7 witness. -/
def c7Fwd : Request :=
  MergeRequestHeaders (setForwardingMetadata "origin" c7Req) [c7Gh, c7Rh]

/-- Witness for C7: on overlapping keys the route-specific list replaces the
global one wholesale, and a non-overlapping global key survives. -/
theorem merge_request_headers_last_wins_witness :
    alookup (MergeRequestHeaders c7Req [c7Gh, c7Rh]).header "Content-Type"
      = some ["text/plain"] ∧
    alookup c7Fwd.header "Content-Type" = some ["text/plain"] ∧
    alookup c7Fwd.header "Accept" = some ["text/html"] := by
  refine ⟨?_, ?_, ?_⟩
  · exact (merge_request_headers_last_wins.1 c7Req [c7Gh, c7Rh] "Content-Type"
      (by decide)).trans (by decide)
  · exact merge_request_headers_last_wins.2.1 "origin" c7Gh c7Route true
      (.ok fun p => p) c7Req c7Fwd "Content-Type" ["text/plain"] rfl (by decide) (by decide)
  · exact merge_request_headers_last_wins.2.2 "origin" c7Gh c7Route true
      (.ok fun p => p) c7Req c7Fwd "Accept" ["text/html"] rfl (by decide) (by decide)
      (by decide)

/-- C8: merging into a response-writer sink applies, per key, the first
value via `Set` and the remaining values via `Add`, so the sink's final list
for a key is exactly the (non-empty) value list `v :: vs` of the last source
containing the key. -/
theorem merge_writer_headers_set_then_add :
    (∀ (a : Header) (k v : String) (vs : List String),
      alookup (applyLines a k (v :: vs)) k = some (v :: vs)) ∧
    (∀ (w : Header) (hs : List Header) (k v : String) (vs : List String),
      (∀ s ∈ hs, keysNodup s) → lastSourceValue hs k = some (v :: vs) →
      alookup (MergeResponseWriterHeaders w hs) k = some (v :: vs)) := by
  refine ⟨alookup_applyLines_self, ?_⟩
  intro w hs k v vs hnd hlast
  exact mergeWriterFold_lookup hs w k v vs hnd hlast

/-- Witness for C8: a two-valued list from the last source lands in the sink
exactly, replacing the earlier source's value. -/
theorem merge_writer_headers_set_then_add_witness :
    alookup (MergeResponseWriterHeaders []
      [[("Set-Cookie", ["a=1"])], [("Set-Cookie", ["b=2", "c=3"])]]) "Set-Cookie"
      = some ["b=2", "c=3"] := by
  exact merge_writer_headers_set_then_add.2 [] _ "Set-Cookie" "b=2" ["c=3"]
    (by decide) (by decide)

/-- C1 (amended): the dispatcher-global modifier runs first and its error
aborts the chain (the route-specific modifier does not run and the error is
surfaced through the error handler by the forwarding engine); `HandlePath`
stores the route modifier under every route method keyed by the ORIGINAL
route path; but the chain then looks the route modifier up by the response's
request method and its CURRENT URL path at modifier time — which coincides
with the originally registered route path only when that registered path is
the literal request path and no rewrite has been applied. -/
theorem modifier_chain_amended :
    (∀ (g : ResponseModifier) (mods : ResponseModifierMap) (r : Response) (e : String),
      g r = .error e → combinedModifyResponse (some g) mods r = .error e) ∧
    (∀ (g : ResponseModifier) (mods : ResponseModifierMap) (r r1 : Response)
      (f : ResponseModifier),
      g r = .ok r1 → mmLookup mods r1.reqMethod r1.reqUrlPath = some f →
      combinedModifyResponse (some g) mods r = f r1) ∧
    (∀ (mods : ResponseModifierMap) (route : Route) (meth : String)
      (f : ResponseModifier),
      meth ∈ route.method → route.modifyResponse = some f →
      mmLookup (registerRouteModifiers mods route) meth route.path = some f) ∧
    (∀ (g : Option ResponseModifier) (mods : ResponseModifierMap) (r : Response),
      (∀ gm : ResponseModifier, g = some gm → ∀ r1 : Response, gm r = .ok r1 →
        r1.reqMethod = r.reqMethod ∧ r1.reqUrlPath = r.reqUrlPath) →
      combinedModifyResponse g mods r = specModifierChain g mods r.reqUrlPath r) ∧
    (∀ (g : Option ResponseModifier) (mods : ResponseModifierMap) (r : Response)
      (e : String),
      combinedModifyResponse g mods r = .error e →
      proxyServe (combinedModifyResponse g mods) (.ok r) = .errorHandled e) := by
  refine ⟨?_, ?_, ?_, ?_, ?_⟩
  · intro g mods r e h
    simp only [combinedModifyResponse, h]
  · intro g mods r r1 f hg hl
    simp only [combinedModifyResponse, hg, hl]
    rcases hf : f r1 with e | r2 <;> rfl
  · intro mods route meth f hmem hmod
    exact registerRouteModifiers_lookup mods route meth f hmem hmod
  · intro g mods r hpres
    cases g with
    | none => rfl
    | some gm =>
      rcases hg : gm r with e | r1
      · simp only [combinedModifyResponse, specModifierChain, hg]
      · have hp := hpres gm rfl r1 hg
        simp only [combinedModifyResponse, specModifierChain, hg, hp.2]
  · intro g mods r e h
    simp only [proxyServe, h]

/-- The route modifier used in the C1 counterexample and witness: it tags
the response so that its execution is observable. -/
def c1RouteModifier : ResponseModifier :=
  fun r => .ok { r with marks := r.marks ++ ["route-modifier"] }

/-- A route with a rewrite target and a response modifier. -/
def c1Route : Route :=
  { method := ["GET"], path := "/items", rewritePath := "/api/items",
    modifyResponse := some c1RouteModifier }

/-- The modifier index `HandlePath` builds for `c1Route`: the modifier is
stored under the key `("GET", "/items")`, the originally registered path. -/
def c1Index : ResponseModifierMap := registerRouteModifiers [] c1Route

/-- The incoming request of the C1 counterexample, matching `/items`. -/
def c1Req : Request :=
  { method := "GET", urlScheme := "http", urlPath := "/items",
    host := "client.example", header := [] }

/-- The request the handler forwards after rewriting `/items` to
`/api/items` (the compiled rewrite rule is the literal substitution). -/
def c1Fwd : Request :=
  { method := "GET", urlScheme := "http", urlPath := "/api/items",
    host := "backend:8000",
    header := [("X-Forwarded-Proto", ["http"]), ("X-Forwarded-Host", ["client.example"])] }

/-- The upstream response as the modifier closure sees it: its request is
the forwarded request, whose URL path is the REWRITTEN path. -/
def c1Resp : Response := { reqMethod := "GET", reqUrlPath := "/api/items" }

/-- Counterexample for C1: for the rewritten route the chain does NOT look
the route modifier up under the originally registered path — the handler
forwards the request with the rewritten URL path, the modifier index holds
the modifier under `("GET", "/items")`, and the code's chain (keyed by the
response's current URL path `/api/items`) skips the modifier that the
claimed lookup by `("GET", "/items")` would run. -/
theorem modifier_lookup_counterexample :
    handleRequest "backend:8000" [] c1Route true
      (.ok fun _ => "/api/items") c1Req = .forwarded c1Fwd ∧
    c1Resp.reqMethod = c1Fwd.method ∧ c1Resp.reqUrlPath = c1Fwd.urlPath ∧
    combinedModifyResponse none c1Index c1Resp ≠
      specModifierChain none c1Index c1Route.path c1Resp := by
  refine ⟨rfl, rfl, rfl, ?_⟩
  decide

/-- A failing dispatcher-global modifier for the C1 witness. -/
def c1wGlobal : ResponseModifier := fun _ => .error "global failed"

/-- Witness for C1: the amended chain theorem applied at concrete inputs —
a failing global modifier aborts the chain and is surfaced through the
error-handler path, and registration stores the route modifier under the
registered path. -/
theorem modifier_chain_amended_witness :
    combinedModifyResponse (some c1wGlobal) [] { reqMethod := "GET", reqUrlPath := "/p" }
      = .error "global failed" ∧
    mmLookup c1Index "GET" "/items" = some c1RouteModifier ∧
    proxyServe (combinedModifyResponse (some c1wGlobal) [])
      (.ok { reqMethod := "GET", reqUrlPath := "/p" }) = .errorHandled "global failed" := by
  refine ⟨?_, ?_, ?_⟩
  · exact modifier_chain_amended.1 c1wGlobal [] _ _ rfl
  · exact modifier_chain_amended.2.2.1 [] c1Route "GET" c1RouteModifier
      (by decide) rfl
  · exact modifier_chain_amended.2.2.2.2 (some c1wGlobal) [] _ _
      (modifier_chain_amended.1 c1wGlobal [] _ _ rfl)

/-- The route of the C2 failing input: it has a rewrite target, so the
handler compiles a rewrite rule at dispatch time. -/
def c2Route : Route := { method := ["GET"], path := "/items", rewritePath := "/api/items" }

/-- The request of the C2 failing input. -/
def c2Req : Request :=
  { method := "GET", urlScheme := "https", urlPath := "/items",
    host := "example.com", header := [] }

/-- C2, evaluated at the failing input: when the rewrite-rule compilation
fails, the handler calls `pm.ErrorHandler` without a nil check — with a
handler configured the error is delivered to it and the request aborted
(second conjunct), but with NO handler configured the call is a nil
function call, i.e. a fault, not the generic error response the claim
requires (first conjunct). -/
theorem rewrite_error_handler_eval :
    handleRequest "backend:8000" [] c2Route false (.error "unparsable pattern") c2Req
      = .nilHandlerFault "unparsable pattern" ∧
    handleRequest "backend:8000" [] c2Route true (.error "unparsable pattern") c2Req
      = .rewriteErrorHandled "unparsable pattern"
        (setForwardingMetadata "backend:8000" c2Req) :=
  ⟨rfl, rfl⟩
